import Mathlib

/-!
Verification of `GenerateShuffList.py` (repository ShuffleList).

Shallow embedding notes:

* Real values are modelled as rationals (`ℚ`).  `np.linspace(a, b, k)` is the
  exact arithmetic progression; the Python floats are approximations of these
  exact values, and every comparison the program performs (float equality of
  pool members, threshold comparisons) is faithfully mirrored by the exact
  model.
* `scipy.stats.pearsonr(x, y)[0]` is `Sxy / sqrt(Sxx * Syy)` with
  `Sxy = Σ (xᵢ - x̄)(yᵢ - ȳ)`.  The program only ever *compares* the absolute
  value of this quantity with a threshold `t`, which (for `Sxx * Syy > 0`) is
  equivalent to comparing `Sxy ^ 2` with `t ^ 2 * Sxx * Syy`; we use that
  square form, which needs no square root.  When a window has zero variance
  scipy returns NaN and both `NaN < t` and `NaN > t` are `False` in Python;
  in the square form both comparisons become `0 < 0` / `0 > 0` (since a zero
  variance forces `Sxy = 0`), which are also false, so the model agrees with
  the NaN behaviour of the source on degenerate windows.
* The correlation values stored in the trace are kept in the sign-preserving
  square encoding `r * |r| = Sxy * |Sxy| / (Sxx * Syy)`, an injective image of
  the float `r` the source stores; every claim below only inspects the trace's
  length, never its entries.
* `random.shuffle` is modelled by an explicit stream of chosen list values
  (one per shuffle call); theorems either hold for every stream or add the
  hypothesis that each chosen value is a permutation of what the source would
  shuffle.  A run that exhausts its finite stream is reported as a distinct
  `model:`-prefixed error, which no claim identifies with program behaviour.
* Python locals that may be read while unassigned (`corrs` in `shufGen` /
  `altshufGen` is assigned only inside the restart loop) are modelled with
  `Option`; returning an unassigned local is the explicit error
  `"UnboundLocalError: corrs"`, exactly the exception CPython raises.
* In `altshufGen` the arrays `small = Mono[:n//2]` and `big = Mono[n//2:]`
  are numpy *views* of `Mono`, so `shuffle(small)` / `shuffle(big)` reorder
  the value pool in place; the model threads the current `(small, big)` pair
  through the seed-search loop to capture that mutation.
-/

/- The Batteries rational arithmetic is `@[irreducible]`, which blocks
`decide` on concrete executions; restore default reducibility so concrete
runs of the model evaluate.  (This only affects elaboration: every proof is
still checked by the kernel, which never consults reducibility hints.) -/
set_option allowUnsafeReducibility true in
attribute [semireducible] Rat.add Rat.mul Rat.inv Rat.sub Rat.ofScientific

instance {ε α : Type} [DecidableEq ε] [DecidableEq α] : DecidableEq (Except ε α)
  | .error a, .error b =>
    if h : a = b then .isTrue (by rw [h])
    else .isFalse (by intro hc; injection hc; contradiction)
  | .error _, .ok _ => .isFalse (fun hc => Except.noConfusion hc)
  | .ok _, .error _ => .isFalse (fun hc => Except.noConfusion hc)
  | .ok a, .ok b =>
    if h : a = b then .isTrue (by rw [h])
    else .isFalse (by intro hc; injection hc; contradiction)

namespace ShuffleList

/-- Arithmetic mean of a list of rationals. -/
def mean (xs : List ℚ) : ℚ := xs.sum / (xs.length : ℚ)

/-- Centered cross-product sum `Σ (xᵢ - x̄)(yᵢ - ȳ)` (the Pearson numerator). -/
def sxy (xs ys : List ℚ) : ℚ :=
  ((xs.zip ys).map (fun p => (p.1 - mean xs) * (p.2 - mean ys))).sum

/-- Centered square sum `Σ (xᵢ - x̄)²`. -/
def sxx (xs : List ℚ) : ℚ := sxy xs xs

/-- `|pearsonr(xs, ys)| < t`, in square form (see file header). -/
def absCorrLt (t : ℚ) (xs ys : List ℚ) : Prop :=
  (sxy xs ys) ^ 2 < t ^ 2 * (sxx xs * sxx ys)

/-- `|pearsonr(xs, ys)| > t`, in square form (see file header). -/
def absCorrGt (t : ℚ) (xs ys : List ℚ) : Prop :=
  (sxy xs ys) ^ 2 > t ^ 2 * (sxx xs * sxx ys)

/-- `|pearsonr(xs, ys)| ≤ t`, in square form. -/
def absCorrLe (t : ℚ) (xs ys : List ℚ) : Prop :=
  (sxy xs ys) ^ 2 ≤ t ^ 2 * (sxx xs * sxx ys)

instance (t : ℚ) (xs ys : List ℚ) : Decidable (absCorrLt t xs ys) := by
  unfold absCorrLt; exact inferInstance

instance (t : ℚ) (xs ys : List ℚ) : Decidable (absCorrGt t xs ys) := by
  unfold absCorrGt; exact inferInstance

instance (t : ℚ) (xs ys : List ℚ) : Decidable (absCorrLe t xs ys) := by
  unfold absCorrLe; exact inferInstance

/-- The sign-preserving square `r * |r|` of the Pearson coefficient; the
encoding in which trace entries are stored (see file header). -/
def pearsonSgnSq (xs ys : List ℚ) : ℚ :=
  (sxy xs ys * |sxy xs ys|) / (sxx xs * sxx ys)

/-- `np.linspace a b k`: `k` evenly spaced values from `a` to `b`. -/
def linspace (a b : ℚ) (k : ℕ) : List ℚ :=
  if k ≤ 1 then List.replicate k a
  else (List.range k).map (fun i : ℕ => a + (b - a) * (i : ℚ) / ((k : ℚ) - 1))

/-- Python's `xs[-k:]`: the last `k` elements, except that `k = 0` (from
`int(n/2)` with `n ≤ 1`) yields the whole list, as `xs[-0:]` does. -/
def lastK (k : ℕ) (xs : List ℚ) : List ℚ :=
  if k = 0 then xs else xs.drop (xs.length - k)

/-- The mutable state of one growth attempt: the growing sequence, its
correlation trace and the cumulative number of accepted elements. -/
structure St where
  optGs : List ℚ
  corrs : List ℚ
  adds : ℕ
deriving DecidableEq, Repr

/-- Body of `for g in shuf` (lines 41–52 / 121–131): skip `g` when it occurs
in the last `n/2` elements; otherwise tentatively append it, keep it (and
record the window correlation) when `|corr| < thr`, else remove it again. -/
def tryAdd (n : ℕ) (phase : List ℚ) (thr : ℚ) (st : St) (g : ℚ) : St :=
  if g ∈ lastK (n / 2) st.optGs then st
  else
    let gs := st.optGs ++ [g]
    let w := lastK n gs
    if absCorrLt thr phase w then ⟨gs, st.corrs ++ [pearsonSgnSq phase w], st.adds + 1⟩
    else st

/-- One round of the pooled grower: scan the whole shuffled pool, with no
early exit after an accept (threshold `0.1`). -/
def shufRound (n : ℕ) (phase : List ℚ) (shuf : List ℚ) (st : St) : St :=
  shuf.foldl (tryAdd n phase (1 / 10)) st

/-- Inner scan of one half in the alternating grower: stop scanning this half
as soon as one value is accepted (the `break` at line 129, threshold `0.05`). -/
def altScan (n : ℕ) (phase : List ℚ) : List ℚ → St → St
  | [], st => st
  | g :: gs, st =>
    let st' := tryAdd n phase (1 / 20) st g
    if st'.adds = st.adds then altScan n phase gs st' else st'

/-- One round of the alternating grower: scan the shuffled low half, then the
shuffled high half, accepting at most one value from each. -/
def altRound (n : ℕ) (phase : List ℚ) (halves : List ℚ × List ℚ) (st : St) : St :=
  altScan n phase halves.2 (altScan n phase halves.1 st)

/-- The shared growth loop (lines 37–54 / 116–133): while the sequence is
shorter than `leng`, run one round on the next shuffled pool from the stream
and stop as soon as the round count exceeds the cumulative accept count.
The second component of the result is the *unconsumed* remainder of the
shuffle stream, so the point at which the loop stops is observable.  An
exhausted stream (first case) is a model boundary, not program behaviour. -/
def growLoop {ρ : Type} (leng : ℕ) (round : ρ → St → St) :
    List ρ → ℕ → St → St × List ρ
  | [], _, st => (st, [])
  | r :: rest, count, st =>
    if st.optGs.length < leng then
      let st' := round r st
      if count + 1 > st'.adds then (st', rest)
      else growLoop leng round rest (count + 1) st'
    else (st, r :: rest)

/-- `shufAdd(optGs, corrs, leng)` of the source, with the per-round shuffle
results passed in as `rounds`. -/
def shufAdd (n : ℕ) (phase : List ℚ) (leng : ℕ) (rounds : List (List ℚ))
    (optGs corrs : List ℚ) : List ℚ × List ℚ :=
  let st := (growLoop leng (shufRound n phase) rounds 0 ⟨optGs, corrs, 0⟩).1
  (st.optGs, st.corrs)

/-- `altshufAdd(optGs, corrs, leng)` of the source, with the per-round
`(small, big)` shuffle results passed in as `rounds`. -/
def altshufAdd (n : ℕ) (phase : List ℚ) (leng : ℕ)
    (rounds : List (List ℚ × List ℚ)) (optGs corrs : List ℚ) : List ℚ × List ℚ :=
  let st := (growLoop leng (altRound n phase) rounds 0 ⟨optGs, corrs, 0⟩).1
  (st.optGs, st.corrs)

/-- Seed search of the pooled variant (lines 29–32): keep replacing `start`
by the next shuffle result until `|pearsonr(phase, start)| ≤ 0.01`. -/
def seedLoop (phase : List ℚ) : List (List ℚ) → List ℚ → Option (List ℚ)
  | [], start => if absCorrGt (1 / 100) phase start then none else some start
  | c :: rest, start =>
    if absCorrGt (1 / 100) phase start then seedLoop phase rest c else some start

/-- `start[::2] = small; start[1::2] = big` for equally long halves: the
strict alternation `s₀, b₀, s₁, b₁, …`. -/
def interleave : List ℚ → List ℚ → List ℚ
  | [], ys => ys
  | x :: xs, [] => x :: xs
  | x :: xs, y :: ys => x :: y :: interleave xs ys

/-- Seed search of the alternating variant (lines 105–111).  The state is
`(start, small, big)`; each iteration replaces `small` and `big` by their new
shuffle results (mutating the two halves of the value pool in place, since
they are numpy views) and writes them into the even and odd slots of
`start`. -/
def altSeedLoop (phase : List ℚ) :
    List (List ℚ × List ℚ) → List ℚ × List ℚ × List ℚ →
      Option (List ℚ × List ℚ × List ℚ)
  | [], st => if absCorrGt (1 / 100) phase st.1 then none else some st
  | c :: rest, st =>
    if absCorrGt (1 / 100) phase st.1 then
      altSeedLoop phase rest (interleave c.1 c.2, c.1, c.2)
    else some st

/-- State of the restart controller (lines 56–71 / 135–150).  `corrs` and
`best` are `Option`s because the corresponding Python locals (`corrs`,
`bestGs`/`bestcorrs`) start unassigned. -/
structure OuterState where
  optGs : List ℚ
  corrs : Option (List ℚ)
  count : ℕ
  lenGs : List ℕ
  best : Option (List ℚ × List ℚ)
deriving DecidableEq, Repr

/-- Python's `max` over the recorded lengths (all entries are nonnegative,
so folding from `0` agrees with `max(lenGs)` on the nonempty lists the
source applies it to). -/
def maxNat (l : List ℕ) : ℕ := l.foldl max 0

/-- One iteration of the restart loop body (lines 60–66 / 139–145): run one
attempt from a fresh copy of the seed, record its length, and record it as
the best result when its length equals the maximum recorded length. -/
def outerStep {α : Type} (attempt : α → List ℚ × List ℚ) (st : OuterState)
    (a : α) : OuterState :=
  let r := attempt a
  let lenGs' := st.lenGs ++ [r.1.length]
  ⟨r.1, some r.2, st.count + 1, lenGs',
    if r.1.length = maxNat lenGs' then some r else st.best⟩

/-- The `count == cap` branch (lines 67–69 / 146–148): fall back to the best
recorded result.  `best` is always assigned by then (it is set on the first
attempt), so the `none` case is unreachable in any run the source performs. -/
def applyCap (st : OuterState) : OuterState :=
  match st.best with
  | some b => { st with optGs := b.1, corrs := some b.2 }
  | none => st

/-- The restart loop (lines 59–71 / 138–150): while the sequence is shorter
than `leng`, run attempts; stop at the restart cap and fall back to the best
result.  An exhausted attempt stream is a model boundary (`none`). -/
def genLoop {α : Type} (leng cap : ℕ) (attempt : α → List ℚ × List ℚ) :
    List α → OuterState → Option OuterState
  | [], st => if st.optGs.length < leng then none else some st
  | a :: rest, st =>
    if st.optGs.length < leng then
      let st' := outerStep attempt st a
      if st'.count = cap then some (applyCap st')
      else genLoop leng cap attempt rest st'
    else some st

/-- The function return (lines 72–73 / 151–152): reading the local `corrs`
raises `UnboundLocalError` when no assignment to it ever ran. -/
def pyReturn (st : OuterState) : Except String (List ℚ × List ℚ) :=
  match st.corrs with
  | some cs => Except.ok (st.optGs, cs)
  | none => Except.error "UnboundLocalError: corrs"

/-- `shufGen(n, leng)` (lines 7–73): pooled variant.  `seedChoices` is the
stream of shuffle results consumed by the seed search, `atts` the stream of
per-attempt round-pool streams consumed by the restart loop. -/
def shufGen (n leng : ℕ) (seedChoices : List (List ℚ))
    (atts : List (List (List ℚ))) : Except String (List ℚ × List ℚ) :=
  let phase := linspace 1 (n : ℚ) n
  let Mono := linspace 5 95 n
  match seedLoop phase seedChoices Mono with
  | none => Except.error "model: seed randomness exhausted"
  | some start =>
    match genLoop leng 1000
        (fun rounds => shufAdd n phase leng rounds start [pearsonSgnSq phase start])
        atts ⟨start, none, 0, [], none⟩ with
    | none => Except.error "model: restart randomness exhausted"
    | some st => pyReturn st

/-- `altshufGen(n, leng)` (lines 79–152): alternating variant, restart cap
`10`, threshold `0.05`, per-round `(small, big)` half pools. -/
def altshufGen (n leng : ℕ) (seedChoices : List (List ℚ × List ℚ))
    (atts : List (List (List ℚ × List ℚ))) : Except String (List ℚ × List ℚ) :=
  let phase := linspace 1 (n : ℚ) n
  let Mono := linspace 5 95 n
  let small := Mono.take (n / 2)
  let big := Mono.drop (n / 2)
  match altSeedLoop phase seedChoices (linspace 0 (n : ℚ) n, small, big) with
  | none => Except.error "model: seed randomness exhausted"
  | some s =>
    match genLoop leng 10
        (fun rounds => altshufAdd n phase leng rounds s.1 [pearsonSgnSq phase s.1])
        atts ⟨s.1, none, 0, [], none⟩ with
    | none => Except.error "model: restart randomness exhausted"
    | some st => pyReturn st

/-! ### Basic facts about the building blocks -/

theorem linspace_length (a b : ℚ) (k : ℕ) : (linspace a b k).length = k := by
  unfold linspace
  split
  · exact List.length_replicate k a
  · rw [List.length_map, List.length_range]

theorem linspace_nodup (a b : ℚ) (k : ℕ) (hab : a ≠ b) : (linspace a b k).Nodup := by
  unfold linspace
  split
  next hk =>
    interval_cases k
    · exact List.nodup_nil
    · exact List.nodup_singleton a
  next hk =>
    refine List.Nodup.map ?_ (List.nodup_range k)
    intro i j hij
    simp only at hij
    have hk1 : ((k : ℚ) - 1) ≠ 0 := by
      have h2 : (2 : ℚ) ≤ (k : ℚ) := by exact_mod_cast (by omega : 2 ≤ k)
      linarith
    have hba : b - a ≠ 0 := sub_ne_zero_of_ne (Ne.symm hab)
    have h4 : (b - a) * (i : ℚ) / ((k : ℚ) - 1) =
        (b - a) * (j : ℚ) / ((k : ℚ) - 1) := by linarith
    field_simp at h4
    rcases h4 with h4 | h4
    · exact h4
    · exact absurd h4 hba

theorem interleave_length : ∀ xs ys : List ℚ,
    (interleave xs ys).length = xs.length + ys.length
  | [], ys => by simp [interleave]
  | x :: xs, [] => by simp [interleave]
  | x :: xs, y :: ys => by
    simp only [interleave, List.length_cons, interleave_length xs ys]
    omega

theorem interleave_perm : ∀ xs ys : List ℚ, (interleave xs ys).Perm (xs ++ ys)
  | [], ys => by simp [interleave]
  | x :: xs, [] => by simp [interleave]
  | x :: xs, y :: ys => by
    simp only [interleave, List.cons_append]
    exact (((interleave_perm xs ys).cons y).trans List.perm_middle.symm).cons x

theorem mem_lastK (k : ℕ) (xs : List ℚ) (j : ℕ) (hj : j < xs.length)
    (h : xs.length ≤ j + k) : xs.get ⟨j, hj⟩ ∈ lastK k xs := by
  unfold lastK
  split
  · exact List.get_mem xs j hj
  · have hlen : j - (xs.length - k) < (xs.drop (xs.length - k)).length := by
      rw [List.length_drop]; omega
    have h3 : (xs.drop (xs.length - k)).get ⟨j - (xs.length - k), hlen⟩ =
        xs.get ⟨j, hj⟩ := by
      simp only [List.get_eq_getElem, List.getElem_drop]
      congr 1
      omega
    rw [← h3]
    exact List.get_mem _ _ _

theorem lastK_of_ne_zero (k : ℕ) (xs : List ℚ) (hk : k ≠ 0) :
    lastK k xs = xs.drop (xs.length - k) := by
  unfold lastK
  simp [hk]

theorem maxNat_append_singleton (l : List ℕ) (x : ℕ) :
    maxNat (l ++ [x]) = max (maxNat l) x := by
  unfold maxNat
  rw [List.foldl_append]
  rfl

theorem le_foldl_max (l : List ℕ) : ∀ a : ℕ, a ≤ l.foldl max a := by
  induction l with
  | nil => intro a; simp
  | cons x xs ih =>
    intro a
    calc a ≤ max a x := le_max_left a x
    _ ≤ xs.foldl max (max a x) := ih (max a x)

theorem mem_le_foldl_max (l : List ℕ) : ∀ (a m : ℕ), m ∈ l → m ≤ l.foldl max a := by
  induction l with
  | nil => intro a m h; cases h
  | cons x xs ih =>
    intro a m h
    rcases List.mem_cons.mp h with rfl | h2
    · calc m ≤ max a m := le_max_right a m
      _ ≤ xs.foldl max (max a m) := le_foldl_max xs (max a m)
    · exact ih (max a x) m h2

theorem mem_le_maxNat (l : List ℕ) (m : ℕ) (h : m ∈ l) : m ≤ maxNat l :=
  mem_le_foldl_max l 0 m h

theorem foldl_max_le (l : List ℕ) : ∀ (a x : ℕ), a ≤ x → (∀ m ∈ l, m ≤ x) →
    l.foldl max a ≤ x := by
  induction l with
  | nil => intro a x ha _; simpa using ha
  | cons y ys ih =>
    intro a x ha hall
    refine ih (max a y) x ?_ ?_
    · exact max_le ha (hall y (List.mem_cons_self y ys))
    · intro m hm; exact hall m (List.mem_cons_of_mem y hm)

theorem maxNat_le_iff (l : List ℕ) (x : ℕ) : maxNat l ≤ x ↔ ∀ m ∈ l, m ≤ x := by
  constructor
  · intro h m hm; exact le_trans (mem_le_maxNat l m hm) h
  · intro h; exact foldl_max_le l 0 x (Nat.zero_le x) h

/-! ### Invariant preservation through the growth and restart loops -/

theorem tryAdd_inv (n : ℕ) (phase : List ℚ) (thr : ℚ)
    (P : List ℚ → List ℚ → Prop)
    (h : ∀ gs cs g, P gs cs → g ∉ lastK (n / 2) gs →
      absCorrLt thr phase (lastK n (gs ++ [g])) →
      P (gs ++ [g]) (cs ++ [pearsonSgnSq phase (lastK n (gs ++ [g]))]))
    (st : St) (g : ℚ) (hst : P st.optGs st.corrs) :
    P (tryAdd n phase thr st g).optGs (tryAdd n phase thr st g).corrs := by
  unfold tryAdd
  split
  · exact hst
  next hmem =>
    dsimp only
    split
    next hcorr => exact h st.optGs st.corrs g hst hmem hcorr
    · exact hst

theorem foldl_inv (f : St → ℚ → St) (P : St → Prop)
    (h : ∀ st g, P st → P (f st g)) :
    ∀ (l : List ℚ) (st : St), P st → P (l.foldl f st)
  | [], _, hst => hst
  | g :: gs, st, hst => foldl_inv f P h gs (f st g) (h st g hst)

theorem altScan_inv (n : ℕ) (phase : List ℚ) (P : St → Prop)
    (h : ∀ st g, P st → P (tryAdd n phase (1 / 20) st g)) :
    ∀ (l : List ℚ) (st : St), P st → P (altScan n phase l st)
  | [], _, hst => hst
  | g :: gs, st, hst => by
    unfold altScan
    dsimp only
    split
    · exact altScan_inv n phase P h gs _ (h st g hst)
    · exact h st g hst

theorem growLoop_inv {ρ : Type} (leng : ℕ) (round : ρ → St → St) (P : St → Prop)
    (h : ∀ r st, P st → P (round r st)) :
    ∀ (rs : List ρ) (count : ℕ) (st : St), P st →
      P (growLoop leng round rs count st).1
  | [], _, _, hst => hst
  | r :: rest, count, st, hst => by
    unfold growLoop
    split
    · dsimp only
      split
      · exact h r st hst
      · exact growLoop_inv leng round P h rest (count + 1) (round r st) (h r st hst)
    · exact hst

theorem shufAdd_inv (n : ℕ) (phase : List ℚ) (leng : ℕ) (rounds : List (List ℚ))
    (optGs corrs : List ℚ) (P : List ℚ → List ℚ → Prop)
    (h : ∀ gs cs g, P gs cs → g ∉ lastK (n / 2) gs →
      absCorrLt (1 / 10) phase (lastK n (gs ++ [g])) →
      P (gs ++ [g]) (cs ++ [pearsonSgnSq phase (lastK n (gs ++ [g]))]))
    (h0 : P optGs corrs) :
    P (shufAdd n phase leng rounds optGs corrs).1
      (shufAdd n phase leng rounds optGs corrs).2 := by
  unfold shufAdd
  dsimp only
  exact growLoop_inv leng (shufRound n phase)
    (fun st => P st.optGs st.corrs)
    (fun r st hst => foldl_inv (tryAdd n phase (1 / 10))
      (fun st => P st.optGs st.corrs)
      (fun st g hst => tryAdd_inv n phase (1 / 10) P h st g hst) r st hst)
    rounds 0 ⟨optGs, corrs, 0⟩ h0

theorem altshufAdd_inv (n : ℕ) (phase : List ℚ) (leng : ℕ)
    (rounds : List (List ℚ × List ℚ)) (optGs corrs : List ℚ)
    (P : List ℚ → List ℚ → Prop)
    (h : ∀ gs cs g, P gs cs → g ∉ lastK (n / 2) gs →
      absCorrLt (1 / 20) phase (lastK n (gs ++ [g])) →
      P (gs ++ [g]) (cs ++ [pearsonSgnSq phase (lastK n (gs ++ [g]))]))
    (h0 : P optGs corrs) :
    P (altshufAdd n phase leng rounds optGs corrs).1
      (altshufAdd n phase leng rounds optGs corrs).2 := by
  unfold altshufAdd
  dsimp only
  have hstep : ∀ st g, P st.optGs st.corrs →
      P (tryAdd n phase (1 / 20) st g).optGs (tryAdd n phase (1 / 20) st g).corrs :=
    fun st g hst => tryAdd_inv n phase (1 / 20) P h st g hst
  exact growLoop_inv leng (altRound n phase)
    (fun st => P st.optGs st.corrs)
    (fun r st hst => altScan_inv n phase (fun st => P st.optGs st.corrs) hstep r.2 _
      (altScan_inv n phase (fun st => P st.optGs st.corrs) hstep r.1 st hst))
    rounds 0 ⟨optGs, corrs, 0⟩ h0

/-- Invariant on the restart-controller state: the predicate holds of the
current result pair (once `corrs` is assigned) and of the recorded best. -/
def stOK (P : List ℚ → List ℚ → Prop) (st : OuterState) : Prop :=
  (∀ cs, st.corrs = some cs → P st.optGs cs) ∧
  (∀ b, st.best = some b → P b.1 b.2)

theorem outerStep_ok {α : Type} (attempt : α → List ℚ × List ℚ)
    (P : List ℚ → List ℚ → Prop)
    (hatt : ∀ a, P (attempt a).1 (attempt a).2) (st : OuterState) (a : α)
    (hst : stOK P st) : stOK P (outerStep attempt st a) := by
  unfold outerStep
  dsimp only
  constructor
  · intro cs hcs
    injection hcs with hcs
    rw [← hcs]
    exact hatt a
  · intro b hb
    split at hb
    · injection hb with hb
      rw [← hb]
      exact hatt a
    · exact hst.2 b hb

theorem applyCap_ok (P : List ℚ → List ℚ → Prop) (st : OuterState)
    (hst : stOK P st) : stOK P (applyCap st) := by
  unfold applyCap
  cases hbest : st.best with
  | none => exact hst
  | some b =>
    dsimp only
    constructor
    · intro cs hcs
      injection hcs with hcs
      rw [← hcs]
      exact hst.2 b hbest
    · intro b2 hb2
      simp only at hb2
      injection hb2 with hb2
      rw [← hb2]
      exact hst.2 b hbest

theorem genLoop_ok {α : Type} (leng cap : ℕ) (attempt : α → List ℚ × List ℚ)
    (P : List ℚ → List ℚ → Prop)
    (hatt : ∀ a, P (attempt a).1 (attempt a).2) :
    ∀ (atts : List α) (st st' : OuterState), stOK P st →
      genLoop leng cap attempt atts st = some st' → stOK P st'
  | [], st, st', hst, h => by
    unfold genLoop at h
    split at h
    · exact Option.noConfusion h
    · injection h with h
      rw [← h]
      exact hst
  | a :: rest, st, st', hst, h => by
    unfold genLoop at h
    split at h
    · dsimp only at h
      split at h
      · injection h with h
        rw [← h]
        exact applyCap_ok P _ (outerStep_ok attempt P hatt st a hst)
      · exact genLoop_ok leng cap attempt P hatt rest _ st'
          (outerStep_ok attempt P hatt st a hst) h
    · injection h with h
      rw [← h]
      exact hst

/-- The seed search only returns its input or one of the shuffle results. -/
theorem seedLoop_mem (phase : List ℚ) :
    ∀ (choices : List (List ℚ)) (start s : List ℚ),
      seedLoop phase choices start = some s → s = start ∨ s ∈ choices
  | [], start, s, h => by
    unfold seedLoop at h
    split at h
    · exact Option.noConfusion h
    · injection h with h
      exact Or.inl h.symm
  | c :: rest, start, s, h => by
    unfold seedLoop at h
    split at h
    · rcases seedLoop_mem phase rest c s h with h1 | h1
      · exact Or.inr (h1 ▸ List.mem_cons_self c rest)
      · exact Or.inr (List.mem_cons_of_mem c h1)
    · injection h with h
      exact Or.inl h.symm

/-- Whenever the seed search terminates, the exit condition of its loop
holds: the returned seed has `|pearson| ≤ 0.01` against `phase`. -/
theorem seedLoop_corr (phase : List ℚ) :
    ∀ (choices : List (List ℚ)) (start s : List ℚ),
      seedLoop phase choices start = some s → absCorrLe (1 / 100) phase s
  | [], start, s, h => by
    unfold seedLoop at h
    split at h
    · exact Option.noConfusion h
    next hgt =>
      injection h with h
      rw [← h]
      exact not_lt.mp hgt
  | c :: rest, start, s, h => by
    unfold seedLoop at h
    split at h
    · exact seedLoop_corr phase rest c s h
    next hgt =>
      injection h with h
      rw [← h]
      exact not_lt.mp hgt

theorem altSeedLoop_mem (phase : List ℚ) :
    ∀ (choices : List (List ℚ × List ℚ)) (st0 st' : List ℚ × List ℚ × List ℚ),
      altSeedLoop phase choices st0 = some st' →
        st' = st0 ∨ ∃ c ∈ choices, st' = (interleave c.1 c.2, c.1, c.2)
  | [], st0, st', h => by
    unfold altSeedLoop at h
    split at h
    · exact Option.noConfusion h
    · injection h with h
      exact Or.inl h.symm
  | c :: rest, st0, st', h => by
    unfold altSeedLoop at h
    split at h
    · rcases altSeedLoop_mem phase rest _ st' h with h1 | h1
      · exact Or.inr ⟨c, List.mem_cons_self c rest, h1⟩
      · rcases h1 with ⟨c2, hc2, he⟩
        exact Or.inr ⟨c2, List.mem_cons_of_mem c hc2, he⟩
    · injection h with h
      exact Or.inl h.symm

theorem altSeedLoop_corr (phase : List ℚ) :
    ∀ (choices : List (List ℚ × List ℚ)) (st0 st' : List ℚ × List ℚ × List ℚ),
      altSeedLoop phase choices st0 = some st' → absCorrLe (1 / 100) phase st'.1
  | [], st0, st', h => by
    unfold altSeedLoop at h
    split at h
    · exact Option.noConfusion h
    next hgt =>
      injection h with h
      rw [← h]
      exact not_lt.mp hgt
  | c :: rest, st0, st', h => by
    unfold altSeedLoop at h
    split at h
    · exact altSeedLoop_corr phase rest _ st' h
    next hgt =>
      injection h with h
      rw [← h]
      exact not_lt.mp hgt

/-- Any predicate preserved by accepted appends and true of the seed state
holds of every pair the pooled generator returns successfully. -/
theorem shufGen_ok (n leng : ℕ) (sc : List (List ℚ)) (atts : List (List (List ℚ)))
    (gs cs : List ℚ) (P : List ℚ → List ℚ → Prop)
    (hstep : ∀ gs' cs' g, P gs' cs' → g ∉ lastK (n / 2) gs' →
      absCorrLt (1 / 10) (linspace 1 (n : ℚ) n) (lastK n (gs' ++ [g])) →
      P (gs' ++ [g])
        (cs' ++ [pearsonSgnSq (linspace 1 (n : ℚ) n) (lastK n (gs' ++ [g]))]))
    (hseed : ∀ s, seedLoop (linspace 1 (n : ℚ) n) sc (linspace 5 95 n) = some s →
      P s [pearsonSgnSq (linspace 1 (n : ℚ) n) s])
    (h : shufGen n leng sc atts = Except.ok (gs, cs)) : P gs cs := by
  unfold shufGen at h
  dsimp only at h
  cases hE : seedLoop (linspace 1 (n : ℚ) n) sc (linspace 5 95 n) with
  | none => rw [hE] at h; exact Except.noConfusion h
  | some s =>
    rw [hE] at h
    dsimp only at h
    cases hG : genLoop leng 1000
        (fun rounds => shufAdd n (linspace 1 (n : ℚ) n) leng rounds s
          [pearsonSgnSq (linspace 1 (n : ℚ) n) s])
        atts ⟨s, none, 0, [], none⟩ with
    | none => rw [hG] at h; exact Except.noConfusion h
    | some st' =>
      rw [hG] at h
      dsimp only at h
      have hOK : stOK P st' := by
        refine genLoop_ok leng 1000 _ P ?_ atts _ st' ?_ hG
        · intro a
          exact shufAdd_inv n (linspace 1 (n : ℚ) n) leng a s
            [pearsonSgnSq (linspace 1 (n : ℚ) n) s] P hstep (hseed s hE)
        · exact ⟨fun cs2 hcs2 => Option.noConfusion hcs2,
            fun b hb => Option.noConfusion hb⟩
      unfold pyReturn at h
      cases hc : st'.corrs with
      | none => rw [hc] at h; exact Except.noConfusion h
      | some cs2 =>
        rw [hc] at h
        dsimp only at h
        injection h with h
        injection h with h1 h2
        rw [← h1, ← h2]
        exact hOK.1 cs2 hc

/-- Any predicate preserved by accepted appends and true of the seed state
holds of every pair the alternating generator returns successfully. -/
theorem altshufGen_ok (n leng : ℕ) (sc : List (List ℚ × List ℚ))
    (atts : List (List (List ℚ × List ℚ)))
    (gs cs : List ℚ) (P : List ℚ → List ℚ → Prop)
    (hstep : ∀ gs' cs' g, P gs' cs' → g ∉ lastK (n / 2) gs' →
      absCorrLt (1 / 20) (linspace 1 (n : ℚ) n) (lastK n (gs' ++ [g])) →
      P (gs' ++ [g])
        (cs' ++ [pearsonSgnSq (linspace 1 (n : ℚ) n) (lastK n (gs' ++ [g]))]))
    (hseed : ∀ s, altSeedLoop (linspace 1 (n : ℚ) n) sc
        (linspace 0 (n : ℚ) n, (linspace 5 95 n).take (n / 2),
          (linspace 5 95 n).drop (n / 2)) = some s →
      P s.1 [pearsonSgnSq (linspace 1 (n : ℚ) n) s.1])
    (h : altshufGen n leng sc atts = Except.ok (gs, cs)) : P gs cs := by
  unfold altshufGen at h
  dsimp only at h
  cases hE : altSeedLoop (linspace 1 (n : ℚ) n) sc
      (linspace 0 (n : ℚ) n, (linspace 5 95 n).take (n / 2),
        (linspace 5 95 n).drop (n / 2)) with
  | none => rw [hE] at h; exact Except.noConfusion h
  | some s =>
    rw [hE] at h
    dsimp only at h
    cases hG : genLoop leng 10
        (fun rounds => altshufAdd n (linspace 1 (n : ℚ) n) leng rounds s.1
          [pearsonSgnSq (linspace 1 (n : ℚ) n) s.1])
        atts ⟨s.1, none, 0, [], none⟩ with
    | none => rw [hG] at h; exact Except.noConfusion h
    | some st' =>
      rw [hG] at h
      dsimp only at h
      have hOK : stOK P st' := by
        refine genLoop_ok leng 10 _ P ?_ atts _ st' ?_ hG
        · intro a
          exact altshufAdd_inv n (linspace 1 (n : ℚ) n) leng a s.1
            [pearsonSgnSq (linspace 1 (n : ℚ) n) s.1] P hstep (hseed s hE)
        · exact ⟨fun cs2 hcs2 => Option.noConfusion hcs2,
            fun b hb => Option.noConfusion hb⟩
      unfold pyReturn at h
      cases hc : st'.corrs with
      | none => rw [hc] at h; exact Except.noConfusion h
      | some cs2 =>
        rw [hc] at h
        dsimp only at h
        injection h with h
        injection h with h1 h2
        rw [← h1, ← h2]
        exact hOK.1 cs2 hc

/-! ### Claim theorems -/

/-- Claim C5: for every result `(sequence, trace)` returned by either
variant, the sequence length is at least `n` and the trace length equals
`1 + (sequence length - n)`: one entry for the seed's own correlation plus
one per element accepted after the seed. -/
theorem trace_alignment
    (n leng : ℕ) (sc : List (List ℚ)) (atts : List (List (List ℚ)))
    (gs cs : List ℚ)
    (hsc : ∀ c ∈ sc, c.length = n)
    (h1 : shufGen n leng sc atts = Except.ok (gs, cs))
    (m leng2 : ℕ) (asc : List (List ℚ × List ℚ))
    (aatts : List (List (List ℚ × List ℚ))) (ags acs : List ℚ)
    (hasc : ∀ c ∈ asc, c.1.length + c.2.length = m)
    (h2 : altshufGen m leng2 asc aatts = Except.ok (ags, acs)) :
    (n ≤ gs.length ∧ cs.length + n = gs.length + 1) ∧
    (m ≤ ags.length ∧ acs.length + m = ags.length + 1) := by
  constructor
  · refine shufGen_ok n leng sc atts gs cs
      (fun gs' cs' => n ≤ gs'.length ∧ cs'.length + n = gs'.length + 1) ?_ ?_ h1
    · intro gs' cs' g hP _ _
      simp only [List.length_append, List.length_cons, List.length_nil]
      omega
    · intro s hs
      have hlen : s.length = n := by
        rcases seedLoop_mem _ sc _ s hs with h | h
        · rw [h, linspace_length]
        · exact hsc s h
      simp only [List.length_cons, List.length_nil, hlen]
      omega
  · refine altshufGen_ok m leng2 asc aatts ags acs
      (fun gs' cs' => m ≤ gs'.length ∧ cs'.length + m = gs'.length + 1) ?_ ?_ h2
    · intro gs' cs' g hP _ _
      simp only [List.length_append, List.length_cons, List.length_nil]
      omega
    · intro s hs
      have hlen : s.1.length = m := by
        rcases altSeedLoop_mem _ asc _ s hs with h | h
        · rw [h, linspace_length]
        · rcases h with ⟨c, hc, he⟩
          rw [he]
          dsimp only
          rw [interleave_length]
          exact hasc c hc
      simp only [List.length_cons, List.length_nil, hlen]
      omega

/-! ### Concrete data for witnesses and counterexamples

`seedW` is a permutation of `linspace 5 95 8` with Pearson correlation
exactly `0` against `1..8`; `altCW` is a pair of half-pool permutations
whose interleaving has correlation `0`.  The generator runs below were
checked by evaluation and are verified here by `decide`. -/

def monoW : List ℚ := linspace 5 95 8

def seedW : List ℚ := [305 / 7, 395 / 7, 485 / 7, 215 / 7, 575 / 7, 125 / 7, 5, 95]

def gsW : List ℚ :=
  [305 / 7, 395 / 7, 485 / 7, 215 / 7, 575 / 7, 125 / 7, 5, 95, 305 / 7, 395 / 7]

def csW : List ℚ := [0, -4 / 441, 0]

def altCW : List ℚ × List ℚ := ([215 / 7, 125 / 7, 5, 305 / 7], [95, 575 / 7, 485 / 7, 395 / 7])

def halvesW : List ℚ × List ℚ := (monoW.take 4, monoW.drop 4)

def agsW : List ℚ := [215 / 7, 95, 125 / 7, 575 / 7, 5, 485 / 7, 305 / 7, 395 / 7, 575 / 7]

def acsW : List ℚ := [0, 1 / 462]

/-- Witness for C5: concrete runs of both variants (n = 8, target 9). -/
theorem trace_alignment_witness :
    ((8 : ℕ) ≤ gsW.length ∧ csW.length + 8 = gsW.length + 1) ∧
    ((8 : ℕ) ≤ agsW.length ∧ acsW.length + 8 = agsW.length + 1) :=
  trace_alignment 8 9 [seedW] [[monoW]] gsW csW (by decide) (by decide)
    8 9 [altCW] [[halvesW]] agsW acsW (by decide) (by decide)

/-- Claim C7: whenever the seed-search loop terminates, the seed it returns
satisfies `|pearson(ReferenceIndex, seed)| ≤ 0.01`, in both variants. -/
theorem seed_correlation
    (n : ℕ) (sc : List (List ℚ)) (s : List ℚ)
    (h1 : seedLoop (linspace 1 (n : ℚ) n) sc (linspace 5 95 n) = some s)
    (m : ℕ) (asc : List (List ℚ × List ℚ)) (ast : List ℚ × List ℚ × List ℚ)
    (h2 : altSeedLoop (linspace 1 (m : ℚ) m) asc
      (linspace 0 (m : ℚ) m, (linspace 5 95 m).take (m / 2),
        (linspace 5 95 m).drop (m / 2)) = some ast) :
    absCorrLe (1 / 100) (linspace 1 (n : ℚ) n) s ∧
    absCorrLe (1 / 100) (linspace 1 (m : ℚ) m) ast.1 :=
  ⟨seedLoop_corr _ sc _ s h1, altSeedLoop_corr _ asc _ ast h2⟩

/-- The final seed-search state of the alternating witness run. -/
def astW : List ℚ × List ℚ × List ℚ :=
  ([215 / 7, 95, 125 / 7, 575 / 7, 5, 485 / 7, 305 / 7, 395 / 7],
    [215 / 7, 125 / 7, 5, 305 / 7], [95, 575 / 7, 485 / 7, 395 / 7])

/-- Witness for C7: concrete seed searches of both variants. -/
theorem seed_correlation_witness :
    absCorrLe (1 / 100) (linspace 1 (8 : ℚ) 8) seedW ∧
    absCorrLe (1 / 100) (linspace 1 (8 : ℚ) 8) astW.1 :=
  seed_correlation 8 [seedW] seedW (by decide) 8 [altCW] astW (by decide)

/-- The pooled seed has length `n` (it is the pool itself or one of its
shuffles). -/
theorem seedLen_pooled (n : ℕ) (sc : List (List ℚ)) (s : List ℚ)
    (hsc : ∀ c ∈ sc, c.length = n)
    (h : seedLoop (linspace 1 (n : ℚ) n) sc (linspace 5 95 n) = some s) :
    s.length = n := by
  rcases seedLoop_mem _ sc _ s h with h2 | h2
  · rw [h2, linspace_length]
  · exact hsc s h2

/-- The alternating seed has length `m` (the placeholder start or an
interleaving of two half shuffles whose lengths sum to `m`). -/
theorem seedLen_alt (m : ℕ) (asc : List (List ℚ × List ℚ))
    (ast : List ℚ × List ℚ × List ℚ)
    (hasc : ∀ c ∈ asc, c.1.length + c.2.length = m)
    (h : altSeedLoop (linspace 1 (m : ℚ) m) asc
      (linspace 0 (m : ℚ) m, (linspace 5 95 m).take (m / 2),
        (linspace 5 95 m).drop (m / 2)) = some ast) :
    ast.1.length = m := by
  rcases altSeedLoop_mem _ asc _ ast h with h2 | ⟨c, hc, he⟩
  · rw [h2]
    exact linspace_length 0 (m : ℚ) m
  · rw [he]
    dsimp only
    rw [interleave_length]
    exact hasc c hc

/-- The `n`-element window of `gs` ending at 0-based position `i`
(`gs[i-n+1 : i+1]` in Python notation once `n ≤ i`). -/
def window (gs : List ℚ) (n i : ℕ) : List ℚ := (gs.take (i + 1)).drop (i + 1 - n)

/-- Accepted appends preserve the window-correlation bound: old windows are
untouched and the new window is exactly the accepted one. -/
theorem window_step (n : ℕ) (hn : 1 ≤ n) (thr : ℚ) (phase : List ℚ)
    (gs : List ℚ) (g : ℚ)
    (hP : ∀ i, n ≤ i → i < gs.length → absCorrLt thr phase (window gs n i))
    (hcorr : absCorrLt thr phase (lastK n (gs ++ [g]))) :
    ∀ i, n ≤ i → i < (gs ++ [g]).length → absCorrLt thr phase (window (gs ++ [g]) n i) := by
  intro i hni hilen
  by_cases hi : i < gs.length
  · have hw : window (gs ++ [g]) n i = window gs n i := by
      unfold window
      rw [List.take_append_of_le_length (by omega : i + 1 ≤ gs.length)]
    rw [hw]
    exact hP i hni hi
  · have hieq : i = gs.length := by
      simp only [List.length_append, List.length_cons, List.length_nil] at hilen
      omega
    subst hieq
    have hw : window (gs ++ [g]) n gs.length = lastK n (gs ++ [g]) := by
      unfold window
      rw [lastK_of_ne_zero n _ (by omega),
        List.take_of_length_le (by simp : (gs ++ [g]).length ≤ gs.length + 1)]
      congr 1
      simp
    rw [hw]
    exact hcorr

/-- Claim C1: in every sequence returned by the pooled variant, every window
of the last `n` elements ending at a position `i ≥ n` has `|pearson| < 0.1`
against the reference index; for the alternating variant the same holds with
threshold `0.05`. -/
theorem corr_bound
    (n leng : ℕ) (hn : 1 ≤ n) (sc : List (List ℚ)) (atts : List (List (List ℚ)))
    (gs cs : List ℚ) (hsc : ∀ c ∈ sc, c.length = n)
    (h1 : shufGen n leng sc atts = Except.ok (gs, cs))
    (m leng2 : ℕ) (hm : 1 ≤ m) (asc : List (List ℚ × List ℚ))
    (aatts : List (List (List ℚ × List ℚ))) (ags acs : List ℚ)
    (hasc : ∀ c ∈ asc, c.1.length + c.2.length = m)
    (h2 : altshufGen m leng2 asc aatts = Except.ok (ags, acs)) :
    (∀ i, n ≤ i → i < gs.length →
      absCorrLt (1 / 10) (linspace 1 (n : ℚ) n) (window gs n i)) ∧
    (∀ i, m ≤ i → i < ags.length →
      absCorrLt (1 / 20) (linspace 1 (m : ℚ) m) (window ags m i)) := by
  constructor
  · refine shufGen_ok n leng sc atts gs cs
      (fun gs' _ => ∀ i, n ≤ i → i < gs'.length →
        absCorrLt (1 / 10) (linspace 1 (n : ℚ) n) (window gs' n i))
      (fun gs' cs' g hP _ hcorr => window_step n hn (1 / 10) _ gs' g hP hcorr)
      ?_ h1
    intro s hs i hni hilen
    rw [seedLen_pooled n sc s hsc hs] at hilen
    omega
  · refine altshufGen_ok m leng2 asc aatts ags acs
      (fun gs' _ => ∀ i, m ≤ i → i < gs'.length →
        absCorrLt (1 / 20) (linspace 1 (m : ℚ) m) (window gs' m i))
      (fun gs' cs' g hP _ hcorr => window_step m hm (1 / 20) _ gs' g hP hcorr)
      ?_ h2
    intro s hs i hmi hilen
    rw [seedLen_alt m asc s hasc hs] at hilen
    omega

/-- Witness for C1: the same concrete runs as for C5. -/
theorem corr_bound_witness :
    (∀ i, 8 ≤ i → i < gsW.length →
      absCorrLt (1 / 10) (linspace 1 (8 : ℚ) 8) (window gsW 8 i)) ∧
    (∀ i, 8 ≤ i → i < agsW.length →
      absCorrLt (1 / 20) (linspace 1 (8 : ℚ) 8) (window agsW 8 i)) :=
  corr_bound 8 9 (by decide) [seedW] [[monoW]] gsW csW (by decide) (by decide)
    8 9 (by decide) [altCW] [[halvesW]] agsW acsW (by decide) (by decide)

/-- No value recurs within the most recent `n / 2` positions: the value at
position `i` differs from every value at the `n / 2` positions before it. -/
def noRecur (n : ℕ) (gs : List ℚ) : Prop :=
  ∀ (i j : ℕ) (hi : i < gs.length) (hj : j < gs.length),
    j < i → i ≤ j + n / 2 → gs.get ⟨i, hi⟩ ≠ gs.get ⟨j, hj⟩

/-- The anti-repetition guard of `tryAdd` preserves `noRecur`. -/
theorem noRecur_step (n : ℕ) (gs : List ℚ) (g : ℚ)
    (hP : noRecur n gs) (hmem : g ∉ lastK (n / 2) gs) : noRecur n (gs ++ [g]) := by
  intro i j hi hj hij hwin
  have hlen : (gs ++ [g]).length = gs.length + 1 := by simp
  have hjlen : j < gs.length := by omega
  by_cases hilt : i < gs.length
  · rw [List.get_append i hilt, List.get_append j hjlen]
    exact hP i j hilt hjlen hij hwin
  · have hieq : i = gs.length := by omega
    subst hieq
    have hlast : (gs ++ [g]).get ⟨gs.length, hi⟩ = g := by simp
    rw [hlast, List.get_append j hjlen]
    intro hEq
    exact hmem (hEq ▸ mem_lastK (n / 2) gs j hjlen (by omega))

/-- A duplicate-free list trivially satisfies the anti-repetition property. -/
theorem noRecur_of_nodup (n : ℕ) (gs : List ℚ) (h : gs.Nodup) : noRecur n gs := by
  intro i j hi hj hij _ hEq
  have h2 := List.nodup_iff_injective_get.mp h hEq
  have h3 : i = j := by
    have := Fin.mk.injEq i hi j hj ▸ h2
    exact Fin.mk.inj_iff.mp h2
  omega

/-- Claim C2: in every sequence produced by either variant, no value recurs
within the most recent `n / 2` positions. -/
theorem anti_repetition
    (n leng : ℕ) (hn : 2 ≤ n) (sc : List (List ℚ)) (atts : List (List (List ℚ)))
    (gs cs : List ℚ) (hsc : ∀ c ∈ sc, c.Perm (linspace 5 95 n))
    (h1 : shufGen n leng sc atts = Except.ok (gs, cs))
    (m leng2 : ℕ) (hm : 2 ≤ m) (asc : List (List ℚ × List ℚ))
    (aatts : List (List (List ℚ × List ℚ))) (ags acs : List ℚ)
    (hasc : ∀ c ∈ asc, c.1.Perm ((linspace 5 95 m).take (m / 2)) ∧
      c.2.Perm ((linspace 5 95 m).drop (m / 2)))
    (h2 : altshufGen m leng2 asc aatts = Except.ok (ags, acs)) :
    noRecur n gs ∧ noRecur m ags := by
  constructor
  · refine shufGen_ok n leng sc atts gs cs (fun gs' _ => noRecur n gs')
      (fun gs' cs' g hP hmem _ => noRecur_step n gs' g hP hmem) ?_ h1
    intro s hs
    apply noRecur_of_nodup
    rcases seedLoop_mem _ sc _ s hs with h | h
    · rw [h]
      exact linspace_nodup 5 95 n (by norm_num)
    · exact (hsc s h).nodup_iff.mpr (linspace_nodup 5 95 n (by norm_num))
  · refine altshufGen_ok m leng2 asc aatts ags acs (fun gs' _ => noRecur m gs')
      (fun gs' cs' g hP hmem _ => noRecur_step m gs' g hP hmem) ?_ h2
    intro s hs
    apply noRecur_of_nodup
    rcases altSeedLoop_mem _ asc _ s hs with h | ⟨c, hc, he⟩
    · rw [h]
      refine linspace_nodup 0 (m : ℚ) m ?_
      have hmq : (0 : ℚ) < (m : ℚ) := by exact_mod_cast (by omega : 0 < m)
      exact ne_of_lt hmq
    · rw [he]
      dsimp only
      have hp : (interleave c.1 c.2).Perm
          ((linspace 5 95 m).take (m / 2) ++ (linspace 5 95 m).drop (m / 2)) :=
        (interleave_perm c.1 c.2).trans (List.Perm.append (hasc c hc).1 (hasc c hc).2)
      rw [List.take_append_drop] at hp
      exact hp.nodup_iff.mpr (linspace_nodup 5 95 m (by norm_num))

/-- Witness for C2: the same concrete runs as for C5. -/
theorem anti_repetition_witness : noRecur 8 gsW ∧ noRecur 8 agsW :=
  anti_repetition 8 9 (by decide) [seedW] [[monoW]] gsW csW (by decide) (by decide)
    8 9 (by decide) [altCW] [[halvesW]] agsW acsW (by decide) (by decide)

/-- Claim C10: when the target length exceeds `n` and the generator returns
normally, the seed found by the reference builder is the first `n` elements
of the returned sequence, in both variants. -/
theorem seed_retained
    (n leng : ℕ) (sc : List (List ℚ)) (atts : List (List (List ℚ)))
    (gs cs s : List ℚ) (hsc : ∀ c ∈ sc, c.length = n)
    (hs : seedLoop (linspace 1 (n : ℚ) n) sc (linspace 5 95 n) = some s)
    (hleng : n < leng)
    (h1 : shufGen n leng sc atts = Except.ok (gs, cs))
    (m leng2 : ℕ) (asc : List (List ℚ × List ℚ))
    (aatts : List (List (List ℚ × List ℚ))) (ags acs : List ℚ)
    (ast : List ℚ × List ℚ × List ℚ)
    (hasc : ∀ c ∈ asc, c.1.length + c.2.length = m)
    (has : altSeedLoop (linspace 1 (m : ℚ) m) asc
      (linspace 0 (m : ℚ) m, (linspace 5 95 m).take (m / 2),
        (linspace 5 95 m).drop (m / 2)) = some ast)
    (hleng2 : m < leng2)
    (h2 : altshufGen m leng2 asc aatts = Except.ok (ags, acs)) :
    gs.take n = s ∧ ags.take m = ast.1 := by
  constructor
  · have hslen : s.length = n := seedLen_pooled n sc s hsc hs
    have h := shufGen_ok n leng sc atts gs cs
      (fun gs' _ => n ≤ gs'.length ∧ gs'.take n = s) ?_ ?_ h1
    · exact h.2
    · intro gs' cs' g hP _ _
      refine ⟨by simp; omega, ?_⟩
      rw [List.take_append_of_le_length hP.1, hP.2]
    · intro s' hs'
      rw [hs] at hs'
      injection hs' with hs'
      subst hs'
      refine ⟨le_of_eq hslen.symm, ?_⟩
      rw [← hslen]
      exact List.take_length s
  · have hastlen : ast.1.length = m := seedLen_alt m asc ast hasc has
    have h := altshufGen_ok m leng2 asc aatts ags acs
      (fun gs' _ => m ≤ gs'.length ∧ gs'.take m = ast.1) ?_ ?_ h2
    · exact h.2
    · intro gs' cs' g hP _ _
      refine ⟨by simp; omega, ?_⟩
      rw [List.take_append_of_le_length hP.1, hP.2]
    · intro s' hs'
      rw [has] at hs'
      injection hs' with hs'
      subst hs'
      refine ⟨le_of_eq hastlen.symm, ?_⟩
      rw [← hastlen]
      exact List.take_length ast.1

/-- Witness for C10: the same concrete runs as for C5. -/
theorem seed_retained_witness : gsW.take 8 = seedW ∧ agsW.take 8 = astW.1 :=
  seed_retained 8 9 [seedW] [[monoW]] gsW csW seedW (by decide) (by decide)
    (by decide) (by decide)
    8 9 [altCW] [[halvesW]] agsW acsW astW (by decide) (by decide) (by decide)
    (by decide)

/-- Claim C3 (code bug): with `targetLength = n` the growth loop never runs,
so the Python local `corrs` is never assigned and the `return` raises
`UnboundLocalError` — instead of returning the length-`n` seed with a
length-1 trace as documented.  Both variants fail the same way. -/
theorem idempotent_shape_bug :
    shufGen 8 8 [seedW] [] = Except.error "UnboundLocalError: corrs" ∧
    altshufGen 8 8 [altCW] [] = Except.error "UnboundLocalError: corrs" :=
  ⟨by decide, by decide⟩

/-- When the sequence already has the target length, the restart loop does
not run at all, whatever the attempt stream holds. -/
theorem genLoop_of_not_lt {α : Type} (leng cap : ℕ)
    (attempt : α → List ℚ × List ℚ) (atts : List α) (st : OuterState)
    (h : ¬ st.optGs.length < leng) :
    genLoop leng cap attempt atts st = some st := by
  cases atts with
  | nil => unfold genLoop; rw [if_neg h]
  | cons a rest => unfold genLoop; rw [if_neg h]

/-- Amended C8: the code performs no configuration validation.  For
`targetLength < n` both variants raise `UnboundLocalError` on return (the
trace local is assigned only inside the restart loop, which never runs) —
a runtime error unrelated to the configuration, not a descriptive
configuration error. -/
theorem no_config_validation
    (n leng : ℕ) (sc : List (List ℚ)) (atts : List (List (List ℚ))) (s : List ℚ)
    (hsc : ∀ c ∈ sc, c.length = n)
    (hs : seedLoop (linspace 1 (n : ℚ) n) sc (linspace 5 95 n) = some s)
    (hleng : leng < n)
    (m leng2 : ℕ) (asc : List (List ℚ × List ℚ))
    (aatts : List (List (List ℚ × List ℚ))) (ast : List ℚ × List ℚ × List ℚ)
    (hasc : ∀ c ∈ asc, c.1.length + c.2.length = m)
    (has : altSeedLoop (linspace 1 (m : ℚ) m) asc
      (linspace 0 (m : ℚ) m, (linspace 5 95 m).take (m / 2),
        (linspace 5 95 m).drop (m / 2)) = some ast)
    (hleng2 : leng2 < m) :
    shufGen n leng sc atts = Except.error "UnboundLocalError: corrs" ∧
    altshufGen m leng2 asc aatts = Except.error "UnboundLocalError: corrs" := by
  constructor
  · have hnlt : ¬ s.length < leng := by
      have := seedLen_pooled n sc s hsc hs
      omega
    simp only [shufGen, hs]
    rw [genLoop_of_not_lt leng 1000 _ atts _ hnlt]
    rfl
  · have hnlt : ¬ ast.1.length < leng2 := by
      have := seedLen_alt m asc ast hasc has
      omega
    simp only [altshufGen, has]
    rw [genLoop_of_not_lt leng2 10 _ aatts _ hnlt]
    rfl

/-- Counterexample for C8: for the invalid configuration `n = 8`,
`targetLength = 4` the pooled generator raises `UnboundLocalError` — an
unrelated runtime error, not a descriptive configuration error. -/
theorem config_error_counterexample :
    shufGen 8 4 [seedW] [] = Except.error "UnboundLocalError: corrs" := by
  decide

/-- Witness for the amended C8 at a concrete invalid configuration. -/
theorem no_config_validation_witness :
    shufGen 8 7 [seedW] [] = Except.error "UnboundLocalError: corrs" ∧
    altshufGen 8 7 [altCW] [] = Except.error "UnboundLocalError: corrs" :=
  no_config_validation 8 7 [seedW] [] seedW (by decide) (by decide) (by decide)
    8 7 [altCW] [] astW (by decide) (by decide) (by decide)

/-- Counterexample for C9 (n = 4): the alternating variant's seed search
shuffles the two numpy views into the value pool, reordering the pool in
place: after one shuffle the pool reads `[35, 5, 95, 65]`, no longer
`linspace 5 95 4 = [5, 35, 65, 95]`. -/
theorem valuePool_mutation_counterexample :
    altSeedLoop (linspace 1 (4 : ℚ) 4) [([35, 5], [95, 65])]
      (linspace 0 (4 : ℚ) 4, (linspace 5 95 4).take 2, (linspace 5 95 4).drop 2) =
      some ([35, 95, 5, 65], [35, 5], [95, 65]) ∧
    ([35, 5] ++ [95, 65] : List ℚ) ≠ linspace 5 95 4 :=
  ⟨by decide, by decide⟩

/-- Amended C9: the alternating variant reorders the halves of the value
pool in place, but every reachable pool state keeps each half a permutation
of its original contents (the multiset of pool values is preserved; the
pooled variant shuffles a copy and never touches the pool). -/
theorem valuePool_halves_preserved (phase : List ℚ)
    (choices : List (List ℚ × List ℚ)) (st0 sm0 bg0 : List ℚ)
    (st : List ℚ × List ℚ × List ℚ)
    (hch : ∀ c ∈ choices, c.1.Perm sm0 ∧ c.2.Perm bg0)
    (h : altSeedLoop phase choices (st0, sm0, bg0) = some st) :
    st.2.1.Perm sm0 ∧ st.2.2.Perm bg0 := by
  rcases altSeedLoop_mem phase choices _ st h with h2 | ⟨c, hc, he⟩
  · rw [h2]
    exact ⟨List.Perm.refl sm0, List.Perm.refl bg0⟩
  · rw [he]
    exact hch c hc

/-- Witness for the amended C9 at the concrete n = 4 run. -/
theorem valuePool_halves_preserved_witness :
    ([35, 5] : List ℚ).Perm ((linspace 5 95 4).take 2) ∧
    ([95, 65] : List ℚ).Perm ((linspace 5 95 4).drop 2) :=
  valuePool_halves_preserved (linspace 1 (4 : ℚ) 4) [([35, 5], [95, 65])]
    (linspace 0 (4 : ℚ) 4) ((linspace 5 95 4).take 2) ((linspace 5 95 4).drop 2)
    ([35, 95, 5, 65], [35, 5], [95, 65]) (by decide) (by decide)

/-- Amended C6: an attempt terminates immediately after a round exactly when
the cumulative round count exceeds the cumulative accept count; the result
(state and unconsumed shuffle stream) is then independent of all further
randomness.  A zero-accept round alone does not terminate the attempt. -/
theorem stall_stops_attempt {ρ : Type} (leng : ℕ) (round : ρ → St → St)
    (r : ρ) (rest : List ρ) (count : ℕ) (st : St)
    (hgrow : st.optGs.length < leng)
    (hstall : count + 1 > (round r st).adds) :
    growLoop leng round (r :: rest) count st = (round r st, rest) := by
  unfold growLoop
  rw [if_pos hgrow]
  dsimp only
  rw [if_pos hstall]

/-- Witness for the amended C6 (n = 4, where no value is ever acceptable,
so the first round accepts zero and `1 > 0` stalls at once). -/
theorem stall_stops_attempt_witness :
    growLoop 10 (shufRound 4 (linspace 1 (4 : ℚ) 4))
      [linspace 5 95 4, linspace 5 95 4] 0 ⟨[35, 95, 5, 65], [0], 0⟩ =
      (shufRound 4 (linspace 1 (4 : ℚ) 4) (linspace 5 95 4) ⟨[35, 95, 5, 65], [0], 0⟩,
        [linspace 5 95 4]) :=
  stall_stops_attempt 10 _ _ _ 0 _ (by decide) (by decide)

/-- Concrete data refuting C6 as stated (pooled variant, n = 7): after four
rounds that accept twelve elements, the round on `z7` accepts zero. -/
def phase7 : List ℚ := linspace 1 (7 : ℚ) 7

def seed7 : List ℚ := [50, 65, 35, 80, 20, 5, 95]

def path7 : List (List ℚ) :=
  [[50, 35, 20, 5, 65, 80, 95], [5, 20, 50, 35, 65, 80, 95],
    [20, 35, 65, 50, 5, 80, 95], [50, 35, 5, 20, 65, 80, 95]]

def z7 : List ℚ := [5, 20, 35, 50, 65, 80, 95]

def st7 : St := ⟨seed7, [pearsonSgnSq phase7 seed7], 0⟩

def st7x : St := path7.foldl (fun st r => shufRound 7 phase7 r st) st7

set_option maxRecDepth 100000 in
/-- Counterexample for C6: round 5 (the first `z7` round) accepts zero new
elements, yet the attempt does not terminate after it: of the ten `z7`
entries following `path7`, the loop consumes nine (it keeps running until
the round count 13 exceeds the accept count 12), leaving only one. -/
theorem stall_claim_counterexample :
    (shufRound 7 phase7 z7 st7x).adds = st7x.adds ∧
    st7x.adds = 12 ∧
    (growLoop 100 (shufRound 7 phase7) (path7 ++ List.replicate 10 z7) 0 st7).2 =
      [z7] :=
  ⟨by decide, by decide, by decide⟩

/-- Amended C4: `outerStep` records the newest attempt as best exactly when
its length is at least every previously recorded attempt length — so on a
tie the LATER attempt replaces the earlier one, and otherwise the best is
kept. -/
theorem best_update_rule {α : Type} (attempt : α → List ℚ × List ℚ)
    (st : OuterState) (a : α) :
    (outerStep attempt st a).best =
      if ∀ l ∈ st.lenGs, l ≤ (attempt a).1.length then some (attempt a)
      else st.best := by
  unfold outerStep
  dsimp only
  by_cases h : ∀ l ∈ st.lenGs, l ≤ (attempt a).1.length
  · rw [if_pos h, if_pos]
    rw [maxNat_append_singleton, Nat.max_eq_right ((maxNat_le_iff _ _).mpr h)]
  · rw [if_neg h, if_neg]
    intro hEq
    apply h
    intro l hl
    have h2 := mem_le_maxNat (st.lenGs ++ [(attempt a).1.length]) l
      (List.mem_append_left _ hl)
    rw [← hEq] at h2
    exact h2

/-- Concrete data refuting the tie direction of C4 (alternating, n = 8):
two attempt streams that stall at the same length 14 with different
sequences. -/
def c15W : List ℚ × List ℚ :=
  ([125 / 7, 215 / 7, 305 / 7, 5], [575 / 7, 95, 395 / 7, 485 / 7])

def altseedW : List ℚ := interleave c15W.1 c15W.2

def pA : List ℚ × List ℚ := ([5, 125 / 7, 215 / 7, 305 / 7], [395 / 7, 485 / 7, 575 / 7, 95])

def pB : List ℚ × List ℚ := ([125 / 7, 5, 215 / 7, 305 / 7], [395 / 7, 485 / 7, 575 / 7, 95])

def streamA : List (List ℚ × List ℚ) := List.replicate 7 pA

def streamB : List (List ℚ × List ℚ) := [pA, pA, pB, pA, pA, pA, pA]

def gsA14 : List ℚ :=
  [125 / 7, 575 / 7, 215 / 7, 95, 305 / 7, 395 / 7, 5, 485 / 7, 95, 215 / 7,
    575 / 7, 5, 395 / 7, 305 / 7]

def csA14 : List ℚ :=
  [0, 1 / 1827, 1 / 1827, 1 / 1827, -3 / 2681, -1 / 2016, -1 / 8043]

def gsB14 : List ℚ :=
  [125 / 7, 575 / 7, 215 / 7, 95, 305 / 7, 395 / 7, 5, 485 / 7, 95, 215 / 7,
    575 / 7, 125 / 7, 395 / 7, 305 / 7]

def csB14 : List ℚ :=
  [0, 1 / 1827, 1 / 1827, 1 / 1827, 1 / 441, 3 / 2345, 1 / 1764]

set_option maxRecDepth 100000 in
/-- Counterexample for C4: ten restart attempts all stall at length 14; the
first nine produce `gsA14` and the tenth produces `gsB14 ≠ gsA14` of the
same length, and the generator returns the TENTH attempt's result as best —
a tie is resolved in favour of the later attempt, not the earlier one. -/
theorem best_tie_counterexample :
    altshufAdd 8 (linspace 1 (8 : ℚ) 8) 20 streamA altseedW
      [pearsonSgnSq (linspace 1 (8 : ℚ) 8) altseedW] = (gsA14, csA14) ∧
    altshufGen 8 20 [c15W] (List.replicate 9 streamA ++ [streamB]) =
      Except.ok (gsB14, csB14) ∧
    gsA14.length = gsB14.length ∧ gsA14 ≠ gsB14 :=
  ⟨by decide, by decide, by decide, by decide⟩

end ShuffleList
